import Mathlib

/-!
Verification of `src/currency_aggregator.py`.

The program reads a text file of `<amount> <currency>` lines, sums the
amounts per currency with Python's `decimal.Decimal` type, and prints the
totals sorted by currency code.  This file gives a shallow embedding of the
program: Python `Decimal` values are modelled by `PyDecimal` (sign,
coefficient, exponent, plus the special values), `Decimal` construction from
a string is `decimalOfString`, context addition (the default context:
precision 28, `ROUND_HALF_EVEN`, `Emax = 999999`, `Emin = -999999`) is
`pyAdd`, and the functions `parse_line`, `aggregate_totals`, `read_lines`
mirror the Python functions of the same names.  `Option`/`LoopOut.raised`
model an exception escaping to the top level (the program only catches
`IndexError` and `FileNotFoundError`).
-/

/-! ### Characters and Python string helpers -/

/-- Python whitespace, as recognised by `str.split()` / `str.strip()` /
`str.isspace()`: the 29 codepoints U+0009–U+000D, U+001C–U+001F, U+0020,
U+0085, U+00A0, U+1680, U+2000–U+200A, U+2028, U+2029, U+202F, U+205F and
U+3000 (the characters for which CPython's `Py_UNICODE_ISSPACE` holds). -/
def isPySpace (c : Char) : Bool :=
  c.toNat = 32 || (9 ≤ c.toNat && c.toNat ≤ 13) ||
    (28 ≤ c.toNat && c.toNat ≤ 31) || c.toNat = 133 || c.toNat = 160 ||
    c.toNat = 5760 || (8192 ≤ c.toNat && c.toNat ≤ 8202) ||
    c.toNat = 8232 || c.toNat = 8233 || c.toNat = 8239 || c.toNat = 8287 ||
    c.toNat = 12288

/-- ASCII decimal digit (used for the output side — the digits the program
itself prints — and for the spec's plain-numeral grammar). -/
def isDigitChar (c : Char) : Bool :=
  48 ≤ c.toNat && c.toNat ≤ 57

/-- The non-ASCII Unicode decimal-digit (category `Nd`) ranges, as
first–last codepoint pairs.  Within each range the digit value is
`(codepoint - first) % 10` (every range is an aligned run of 0–9 cycles;
the U+1D7CE mathematical range holds five consecutive cycles). -/
def ndRanges : List (Nat × Nat) :=
  [(0x660, 0x669), (0x6f0, 0x6f9), (0x7c0, 0x7c9), (0x966, 0x96f),
   (0x9e6, 0x9ef), (0xa66, 0xa6f), (0xae6, 0xaef), (0xb66, 0xb6f),
   (0xbe6, 0xbef), (0xc66, 0xc6f), (0xce6, 0xcef), (0xd66, 0xd6f),
   (0xde6, 0xdef), (0xe50, 0xe59), (0xed0, 0xed9), (0xf20, 0xf29),
   (0x1040, 0x1049), (0x1090, 0x1099), (0x17e0, 0x17e9), (0x1810, 0x1819),
   (0x1946, 0x194f), (0x19d0, 0x19d9), (0x1a80, 0x1a89), (0x1a90, 0x1a99),
   (0x1b50, 0x1b59), (0x1bb0, 0x1bb9), (0x1c40, 0x1c49), (0x1c50, 0x1c59),
   (0xa620, 0xa629), (0xa8d0, 0xa8d9), (0xa900, 0xa909), (0xa9d0, 0xa9d9),
   (0xa9f0, 0xa9f9), (0xaa50, 0xaa59), (0xabf0, 0xabf9), (0xff10, 0xff19),
   (0x104a0, 0x104a9), (0x10d30, 0x10d39), (0x11066, 0x1106f),
   (0x110f0, 0x110f9), (0x11136, 0x1113f), (0x111d0, 0x111d9),
   (0x112f0, 0x112f9), (0x11450, 0x11459), (0x114d0, 0x114d9),
   (0x11650, 0x11659), (0x116c0, 0x116c9), (0x11730, 0x11739),
   (0x118e0, 0x118e9), (0x11950, 0x11959), (0x11c50, 0x11c59),
   (0x11d50, 0x11d59), (0x11da0, 0x11da9), (0x16a60, 0x16a69),
   (0x16ac0, 0x16ac9), (0x16b50, 0x16b59), (0x1d7ce, 0x1d7ff),
   (0x1e140, 0x1e149), (0x1e2f0, 0x1e2f9), (0x1e950, 0x1e959),
   (0x1fbf0, 0x1fbf9)]

/-- Look a codepoint up in the `Nd` range table. -/
def lookupDigit : List (Nat × Nat) → Nat → Option Nat
  | [], _ => none
  | (a, b) :: rest, n =>
      if a ≤ n && n ≤ b then some ((n - a) % 10) else lookupDigit rest n

/-- The decimal value of a Unicode decimal digit (category `Nd`), `none`
otherwise — the digits `Decimal(str)` accepts and transcodes
(`Py_UNICODE_TODECIMAL`): ASCII digits plus every other `Nd` digit. -/
def charDecimal? (c : Char) : Option Nat :=
  if 48 ≤ c.toNat && c.toNat ≤ 57 then some (c.toNat - 48)
  else lookupDigit ndRanges c.toNat

/-- A Unicode decimal digit, as `Decimal(str)` recognises digits. -/
def isUniDigit (c : Char) : Bool :=
  (charDecimal? c).isSome

/-- ASCII lower-casing, as Python's case-insensitive comparison of the
special tokens `Infinity` / `NaN` uses. -/
def asciiLower (c : Char) : Char :=
  if 65 ≤ c.toNat && c.toNat ≤ 90 then Char.ofNat (c.toNat + 32) else c

/-- Numeric value of a digit string (most significant first), valuing each
Unicode decimal digit by its `Nd` decimal value. -/
def digitsToNat (l : List Char) : Nat :=
  l.foldl (fun n c => 10 * n + (charDecimal? c).getD 0) 0

/-- Strip `isPySpace` characters from both ends, as `str.strip()` does. -/
def stripChars (l : List Char) : List Char :=
  ((l.dropWhile isPySpace).reverse.dropWhile isPySpace).reverse

/-- `str.strip()`. -/
def pyStrip (s : String) : String :=
  ⟨stripChars s.data⟩

/-- Worker for `str.split()` with no separator: accumulate the current word
(reversed) and break on runs of whitespace, discarding empty words. -/
def splitWsAux : List Char → List Char → List (List Char)
  | [], acc => if acc.isEmpty then [] else [acc.reverse]
  | c :: cs, acc =>
      if isPySpace c then
        if acc.isEmpty then splitWsAux cs [] else acc.reverse :: splitWsAux cs []
      else
        splitWsAux cs (c :: acc)

/-- `str.split()`: split on runs of whitespace, no empty fields. -/
def pySplit (s : String) : List String :=
  (splitWsAux s.data []).map List.asString

/-- Codepoint-wise lexicographic `≤` on character lists: this is exactly how
Python compares two strings (shorter prefix first, otherwise the first
differing codepoint decides). -/
def lexLe : List Char → List Char → Bool
  | [], _ => true
  | _ :: _, [] => false
  | a :: as, b :: bs => if a = b then lexLe as bs else decide (a.toNat < b.toNat)

/-- Codepoint-wise lexicographic `<` on character lists. -/
def lexLt : List Char → List Char → Bool
  | [], [] => false
  | [], _ :: _ => true
  | _ :: _, [] => false
  | a :: as, b :: bs => if a = b then lexLt as bs else decide (a.toNat < b.toNat)

/-- Python string comparison `a <= b` (codepoint-wise lexicographic). -/
def strLe (a b : String) : Bool :=
  lexLe a.data b.data

/-- Python string comparison `a < b` (codepoint-wise lexicographic). -/
def strLt (a b : String) : Bool :=
  lexLt a.data b.data

/-! ### The `decimal.Decimal` model -/

/-- A Python `Decimal`: a finite number `(-1)^sign * coeff * 10^exp`, an
infinity, or a (quiet or signaling) NaN with payload. -/
inductive PyDecimal where
  | num (sign : Bool) (coeff : Nat) (exp : Int)
  | inf (sign : Bool)
  | nan (sign : Bool) (signaling : Bool) (payload : Nat)
deriving DecidableEq, Repr

/-- `Decimal()` (and the value a `defaultdict(Decimal)` starts a key at). -/
def pyZero : PyDecimal := PyDecimal.num false 0 0

/-- Number of decimal digits of a coefficient (1 for `0`, matching the
one-digit coefficient tuple `(0,)` Python stores for zero). -/
def numDigits (n : Nat) : Nat :=
  (Nat.toDigits 10 n).length

/-- Precision of the default `decimal` context (`getcontext().prec`). -/
def pyPrec : Nat := 28

/-- `Emax` of the default `decimal` context. -/
def pyEmax : Int := 999999

/-- `Etiny = Emin - prec + 1` of the default `decimal` context. -/
def pyEtiny : Int := -1000026

/-- Divide `m` by `k > 0` rounding half to even (`ROUND_HALF_EVEN`). -/
def halfEvenDiv (m k : Nat) : Nat :=
  let q := m / k
  let r := m % k
  if k < 2 * r then q + 1
  else if 2 * r < k then q
  else if q % 2 = 0 then q else q + 1

/-- Signed coefficient of a finite decimal. -/
def signedCoeff (s : Bool) (c : Nat) : Int :=
  if s then -(c : Int) else (c : Int)

/-- Addition of two finite decimals under the default context: exact sum at
the smaller exponent, then rounded half-even to 28 significant digits (or to
exponent `Etiny` if that is larger), with `Overflow` (which the default
context traps, so the exception escapes) modelled as `none`. -/
def pyAddNum (s1 : Bool) (c1 : Nat) (e1 : Int) (s2 : Bool) (c2 : Nat)
    (e2 : Int) : Option PyDecimal :=
  let e := min e1 e2
  let i := signedCoeff s1 c1 * 10 ^ (e1 - e).toNat +
    signedCoeff s2 c2 * 10 ^ (e2 - e).toNat
  if i = 0 then
    some (.num (s1 && s2) 0 (min (max e pyEtiny) pyEmax))
  else
    let sign := decide (i < 0)
    let m := i.natAbs
    let nd := numDigits m
    let target := max (e + ((nd - pyPrec : Nat) : Int)) pyEtiny
    if target ≤ e then
      if pyEmax < e + (nd : Int) - 1 then none
      else some (.num sign m e)
    else
      let q0 := halfEvenDiv m (10 ^ (target - e).toNat)
      let q := if pyPrec < numDigits q0 then q0 / 10 else q0
      let te := if pyPrec < numDigits q0 then target + 1 else target
      if q = 0 then some (.num sign 0 te)
      else if pyEmax < te + (numDigits q : Int) - 1 then none
      else some (.num sign q te)

/-- `Decimal.__add__` under the default context.  A signaling NaN operand
(or `inf + -inf`, or an overflowing result) raises `InvalidOperation` /
`Overflow`, both trapped by default: modelled as `none` (the exception is
not caught by `read_lines`, so it would crash the run).  A quiet NaN
propagates. -/
def pyAdd : PyDecimal → PyDecimal → Option PyDecimal
  | .nan _ true _, _ => none
  | _, .nan _ true _ => none
  | .nan s false p, _ => some (.nan s false p)
  | _, .nan s false p => some (.nan s false p)
  | .inf s1, .inf s2 => if s1 = s2 then some (.inf s1) else none
  | .inf s1, .num _ _ _ => some (.inf s1)
  | .num _ _ _, .inf s2 => some (.inf s2)
  | .num s1 c1 e1, .num s2 c2 e2 => pyAddNum s1 c1 e1 s2 c2 e2

/-- Rational value of a finite decimal (specials, never fed to this in any
statement below, are mapped to `0`). -/
def valQ : PyDecimal → ℚ
  | .num s c e => (if s then -1 else 1) * (c : ℚ) * (10 : ℚ) ^ e
  | _ => 0

/-! ### `Decimal` construction from a string

`Decimal(str)` is exact (no context rounding).  The accepted grammar, after
stripping surrounding whitespace and removing every underscore, is
(case-insensitively)

  `[sign] (digits [. digits] | . digits) [ (e|E) [sign] digits ]`
  `| [sign] (inf | infinity) | [sign] (nan | snan) [digits]`

anything else raises `InvalidOperation`, which `parse_line` catches. -/

/-- Leading `+` / `-`; returns (negative?, rest). -/
def splitSign : List Char → Bool × List Char
  | '+' :: rest => (false, rest)
  | '-' :: rest => (true, rest)
  | l => (false, l)

/-- Longest prefix of characters satisfying `p`, and the remainder. -/
def spanBy (p : Char → Bool) : List Char → List Char × List Char
  | [] => ([], [])
  | c :: cs =>
      if p c then
        let r := spanBy p cs
        (c :: r.1, r.2)
      else
        ([], c :: cs)

/-- Exponent part after the `e`/`E` indicator: `[sign] digits`, end of
input. -/
def parseExponent (cs : List Char) : Option Int :=
  let p := splitSign cs
  let d := spanBy isUniDigit p.2
  if d.1.isEmpty || !d.2.isEmpty then none
  else some (if p.1 then -(digitsToNat d.1 : Int) else (digitsToNat d.1 : Int))

/-- Assemble a finite decimal from integer digits, fraction digits and the
trailing input (which may carry an exponent part). -/
def finishNumeric (sgn : Bool) (intd fracd rest : List Char) :
    Option PyDecimal :=
  match rest with
  | [] => some (.num sgn (digitsToNat (intd ++ fracd)) (-(fracd.length : Int)))
  | e :: rest2 =>
      if e = 'e' || e = 'E' then
        match parseExponent rest2 with
        | some ex => some (.num sgn (digitsToNat (intd ++ fracd))
            (ex - (fracd.length : Int)))
        | none => none
      else none

/-- Body of the numeric-string grammar, after the optional sign. -/
def parseAfterSign (sgn : Bool) (cs : List Char) : Option PyDecimal :=
  let low := cs.map asciiLower
  if low = "inf".data || low = "infinity".data then some (.inf sgn)
  else if low.take 3 = "nan".data then
    if (low.drop 3).all isUniDigit then
      some (.nan sgn false (digitsToNat (low.drop 3)))
    else none
  else if low.take 4 = "snan".data then
    if (low.drop 4).all isUniDigit then
      some (.nan sgn true (digitsToNat (low.drop 4)))
    else none
  else
    let p := spanBy isUniDigit cs
    match p.2 with
    | '.' :: rest =>
        let f := spanBy isUniDigit rest
        if p.1.isEmpty && f.1.isEmpty then none
        else finishNumeric sgn p.1 f.1 f.2
    | _ =>
        if p.1.isEmpty then none else finishNumeric sgn p.1 [] p.2

/-- `Decimal(s)`: `none` models the `InvalidOperation` the constructor
raises on a malformed numeric string.  All underscores are removed before
parsing (`value.replace("_", "")` in `decimal.py`), and surrounding
whitespace is stripped. -/
def decimalOfString (s : String) : Option PyDecimal :=
  let u := (stripChars s.data).filter (fun c => c != '_')
  let p := splitSign u
  parseAfterSign p.1 p.2

/-! ### The program -/

/-- `parse_line(line)`: result plus the diagnostics it prints to stderr. -/
def parse_line (line : List String) : Option (PyDecimal × String) × List String :=
  match line with
  | [amount_str, currency] =>
      match decimalOfString amount_str with
      | some amount => (some (amount, currency), [])
      | none =>
          (none, ["Skipping malformed amount: '" ++ amount_str ++ "'"])
  | _ =>
      (none, ["Skipping malformed line length: expected 2 parts, got '" ++
        Nat.repr line.length ++ "'"])

/-- Value of `totals[c]` as the `defaultdict(Decimal)` lookup sees it:
the stored sum, or `Decimal()` for a missing key. -/
def lookupTot : List (String × PyDecimal) → String → PyDecimal
  | [], _ => pyZero
  | (k, v) :: rest, c => if k = c then v else lookupTot rest c

/-- `totals[currency] += amount` on the insertion-ordered association list
modelling the dict; `none` when the addition raises. -/
def updAdd (ts : List (String × PyDecimal)) (c : String) (a : PyDecimal) :
    Option (List (String × PyDecimal)) :=
  match ts with
  | [] => (pyAdd pyZero a).map (fun v => [(c, v)])
  | (k, v) :: rest =>
      if k = c then (pyAdd v a).map (fun w => (k, w) :: rest)
      else (updAdd rest c a).map (fun r => (k, v) :: r)

/-- Run the aggregation steps of the loop over a record sequence, starting
from the given totals (spec §4.2's `accumulate`, iterated). -/
def accumFrom (ts : List (String × PyDecimal)) :
    List (PyDecimal × String) → Option (List (String × PyDecimal))
  | [] => some ts
  | (a, c) :: rs =>
      match updAdd ts c a with
      | some ts2 => accumFrom ts2 rs
      | none => none

/-- Aggregate a record sequence starting from the empty totals. -/
def accumulate (recs : List (PyDecimal × String)) :
    Option (List (String × PyDecimal)) :=
  accumFrom [] recs

/-- Outcome of the line loop: normal completion with the final totals and
stderr diagnostics, or an uncaught exception after the diagnostics printed
so far. -/
inductive LoopOut where
  | done (totals : List (String × PyDecimal)) (errs : List String)
  | raised (errs : List String)
deriving DecidableEq, Repr

/-- The `for line in f` loop of `read_lines`: strip, split, parse, and
accumulate each line, collecting stderr diagnostics. -/
def runLoop (totals : List (String × PyDecimal)) (errs : List String) :
    List String → LoopOut
  | [] => .done totals errs
  | line :: rest =>
      let parts := pySplit (pyStrip line)
      match parse_line parts with
      | (some (amount, currency), _) =>
          match updAdd totals currency amount with
          | some ts => runLoop ts errs rest
          | none => .raised errs
      | (none, d) => runLoop totals (errs ++ d) rest

/-- One report entry, `f"{currency}: {total:.2f}"`; see `format2` below. -/
def fmtEntry (p : String × PyDecimal) : String :=
  p.1 ++ ": " ++ format2 p.2
where
  /-- Rescale the magnitude `c * 10^e` to exponent `-2` with half-even
  rounding, as `.2f` formatting of a `Decimal` does under the default
  context. -/
  rescaleCoeff (c : Nat) (e : Int) : Nat :=
    if -2 ≤ e then c * 10 ^ (e + 2).toNat
    else halfEvenDiv c (10 ^ (-(e + 2)).toNat)
  /-- The two fraction digits (`n < 100`). -/
  pad2 (n : Nat) : String :=
    ⟨[Char.ofNat (48 + n / 10), Char.ofNat (48 + n % 10)]⟩
  /-- `format(d, ".2f")`. -/
  format2 : PyDecimal → String
    | .num s c e =>
        let q := rescaleCoeff c e
        (if s then "-" else "") ++ Nat.repr (q / 100) ++ "." ++ pad2 (q % 100)
    | .inf s => (if s then "-" else "") ++ "Infinity"
    | .nan s sig p =>
        (if s then "-" else "") ++ (if sig then "sNaN" else "NaN") ++
          (if p = 0 then "" else Nat.repr p)

/-- `sorted(data.items())`: with the pairwise-distinct keys a dict yields,
the tuple comparison Python uses reduces to codepoint-lexicographic
comparison of the currency codes. -/
def sortedItems (data : List (String × PyDecimal)) :
    List (String × PyDecimal) :=
  List.insertionSort (fun p q => strLe p.1 q.1 = true) data

/-- `aggregate_totals(data)`: the stdout lines it prints. -/
def aggregate_totals (data : List (String × PyDecimal)) : List String :=
  (sortedItems data).map fmtEntry

/-- The state of the filesystem at the path the program is given, as
`open(filepath, "r")` sees it: a readable file with the given (newline-less)
lines, a missing path (`FileNotFoundError`), or a path that exists but is
not readable (`PermissionError`). -/
inductive FS where
  | file (lines : List String)
  | notFound
  | permissionDenied
deriving DecidableEq, Repr

/-- Observable outcome of a run: `exit stdout stderr code` for a run that
reaches `sys.exit` or falls off the end, `crash stderr` for an uncaught
exception (Python then prints a traceback and exits nonzero). -/
inductive RunResult where
  | exit (stdout stderr : List String) (code : Nat)
  | crash (stderr : List String)
deriving DecidableEq, Repr

/-- `read_lines(filepath)`.  The `try` block catches `IndexError` (dead: the
loop body cannot raise it) and `FileNotFoundError`; a `PermissionError` from
`open`, or a decimal exception from `+=`, escapes uncaught. -/
def read_lines (fs : FS) (filepath : String) : RunResult :=
  match fs with
  | .notFound =>
      .exit [] ["Error: File not found at '" ++ filepath ++ "'"] 1
  | .permissionDenied => .crash []
  | .file lines =>
      match runLoop [] [] lines with
      | .done totals errs => .exit (aggregate_totals totals) errs 0
      | .raised errs => .crash errs

/-- The `__main__` block: `argv` is `sys.argv` (script name first). -/
def main_run (argv : List String) (fs : FS) : RunResult :=
  match argv with
  | _ :: filepath :: _ => read_lines fs filepath
  | _ =>
      .exit []
        ["Error: Missing file argument. Usage: python3 script.py <filename>"] 1

/-! ### Derived views used by the statements -/

/-- The valid records of an input, in order (spec §3's `Record` stream). -/
def validRecords (lines : List String) : List (PyDecimal × String) :=
  lines.filterMap (fun l => (parse_line (pySplit (pyStrip l))).1)

/-- The amounts of the valid records carrying currency `c`. -/
def amountsFor (c : String) (lines : List String) : List PyDecimal :=
  ((validRecords lines).filter (fun r => decide (r.2 = c))).map Prod.fst

/-- The amounts of the records carrying currency `c`, in order. -/
def amountsOfRecs (c : String) (recs : List (PyDecimal × String)) :
    List PyDecimal :=
  (recs.filter (fun r => decide (r.2 = c))).map Prod.fst

/-- Fold context addition over a list of amounts (the per-currency running
sum), `none` if any addition raises. -/
def foldFrom (acc : PyDecimal) : List PyDecimal → Option PyDecimal
  | [] => some acc
  | d :: ds =>
      match pyAdd acc d with
      | some acc2 => foldFrom acc2 ds
      | none => none

/-- `pyAdd acc d` stays exact: both operands finite, the exact sum fits in
28 significant digits, and the exponent range forces no rounding or
overflow. -/
def stepExact : PyDecimal → PyDecimal → Bool
  | .num s1 c1 e1, .num s2 c2 e2 =>
      let e := min e1 e2
      let i := signedCoeff s1 c1 * 10 ^ (e1 - e).toNat +
        signedCoeff s2 c2 * 10 ^ (e2 - e).toNat
      if i = 0 then true
      else
        numDigits i.natAbs ≤ pyPrec && pyEtiny ≤ e &&
          e + (numDigits i.natAbs : Int) - 1 ≤ pyEmax
  | _, _ => false

/-- Every step of the running sum over `ds`, started at `acc`, is exact. -/
def exactFits : PyDecimal → List PyDecimal → Bool
  | _, [] => true
  | acc, d :: ds =>
      stepExact acc d &&
        (match pyAdd acc d with
          | some acc2 => exactFits acc2 ds
          | none => false)

/-! ### Spec-side definitions (for refinement statements) -/

/-- Modelled from the spec: the grammar claim C5 states for `<amount>` —
"a decimal numeral (optional sign, digits, optional fractional part)". -/
def isPlainNumeral (s : String) : Bool :=
  let p := splitSign s.data
  let d := spanBy isDigitChar p.2
  match d.2 with
  | [] => !d.1.isEmpty
  | '.' :: r2 => !d.1.isEmpty && r2.all isDigitChar
  | _ => false

/-- Round a rational to the nearest integer, ties to the even neighbour
(the mathematical reading of `ROUND_HALF_EVEN`). -/
def halfEvenRoundQ (q : ℚ) : ℤ :=
  if Int.fract q = 1 / 2 then (if ⌊q⌋ % 2 = 0 then ⌊q⌋ else ⌊q⌋ + 1)
  else round q

/-- The spec's reading of the report amount: the exact total scaled by 100
and rounded half-even. -/
def specRound2 (v : ℚ) : ℤ :=
  halfEvenRoundQ (100 * v)

/-- The report rendering determined by the numeric value alone: sign, then
the rounded magnitude split around the decimal point with exactly two
fraction digits. -/
def specLine (v : ℚ) : String :=
  (if v < 0 then "-" else "") ++ Nat.repr ((specRound2 |v|).toNat / 100) ++
    "." ++ fmtEntry.pad2 ((specRound2 |v|).toNat % 100)

/-! ### Helper lemmas: characters and lexicographic order -/

theorem char_eq_of_toNat_eq {a b : Char} (h : a.toNat = b.toNat) : a = b := by
  rcases a with ⟨⟨⟨an, alt⟩⟩, ha⟩
  rcases b with ⟨⟨⟨bn, blt⟩⟩, hb⟩
  simp only [Char.toNat, UInt32.toNat] at h
  subst h
  rfl

theorem string_eq_of_data_eq {a b : String} (h : a.data = b.data) : a = b :=
  congrArg String.mk h

theorem lexLe_trans {a b c : List Char} (h1 : lexLe a b = true)
    (h2 : lexLe b c = true) : lexLe a c = true := by
  induction a generalizing b c with
  | nil => rfl
  | cons x as ih =>
    cases b with
    | nil => simp [lexLe] at h1
    | cons y bs =>
      cases c with
      | nil => simp [lexLe] at h2
      | cons z cs =>
        rcases eq_or_ne x y with rfl | hxy
        · rcases eq_or_ne x z with rfl | hxz
          · simp only [lexLe, if_pos rfl] at h1 h2 ⊢
            exact ih h1 h2
          · simpa [lexLe, hxz] using h2
        · rcases eq_or_ne y z with rfl | hyz
          · simpa [lexLe, hxy] using h1
          · simp only [lexLe, if_neg hxy, if_neg hyz, decide_eq_true_eq] at h1 h2
            have hxz : x ≠ z := by
              intro he
              subst he
              omega
            simp only [lexLe, if_neg hxz, decide_eq_true_eq]
            omega

theorem lexLe_total (a b : List Char) : lexLe a b = true ∨ lexLe b a = true := by
  induction a generalizing b with
  | nil => left; rfl
  | cons x as ih =>
    cases b with
    | nil => right; rfl
    | cons y bs =>
      rcases eq_or_ne x y with rfl | hxy
      · rcases ih bs with h | h
        · left; simpa [lexLe]
        · right; simpa [lexLe]
      · have hne : x.toNat ≠ y.toNat := fun h => hxy (char_eq_of_toNat_eq h)
        rcases Nat.lt_or_ge x.toNat y.toNat with h | h
        · left
          simp only [lexLe, if_neg hxy, decide_eq_true_eq]
          exact h
        · right
          simp only [lexLe, if_neg (Ne.symm hxy), decide_eq_true_eq]
          omega

theorem lexLt_of_le_of_ne {a b : List Char} (h : lexLe a b = true)
    (hne : a ≠ b) : lexLt a b = true := by
  induction a generalizing b with
  | nil =>
    cases b with
    | nil => exact absurd rfl hne
    | cons y bs => rfl
  | cons x as ih =>
    cases b with
    | nil => simp [lexLe] at h
    | cons y bs =>
      rcases eq_or_ne x y with rfl | hxy
      · have hne2 : as ≠ bs := by
          intro he
          exact hne (by rw [he])
        simp only [lexLe, if_pos rfl] at h
        simp only [lexLt, if_pos rfl]
        exact ih h hne2
      · simp only [lexLe, if_neg hxy] at h
        simpa only [lexLt, if_neg hxy] using h

/-! ### Helper lemmas: the sorted report -/

theorem sortedItems_perm (data : List (String × PyDecimal)) :
    (sortedItems data).Perm data :=
  List.perm_insertionSort _ _

theorem sortedItems_sorted (data : List (String × PyDecimal)) :
    List.Pairwise (fun p q => strLe p.1 q.1 = true) (sortedItems data) := by
  haveI : IsTotal (String × PyDecimal) (fun p q => strLe p.1 q.1 = true) :=
    ⟨fun a b => lexLe_total a.1.data b.1.data⟩
  haveI : IsTrans (String × PyDecimal) (fun p q => strLe p.1 q.1 = true) :=
    ⟨fun _ _ _ h1 h2 => lexLe_trans h1 h2⟩
  exact List.sorted_insertionSort _ data

theorem sortedItems_strict (data : List (String × PyDecimal))
    (h : (data.map Prod.fst).Nodup) :
    List.Pairwise (fun p q => strLt p.1 q.1 = true) (sortedItems data) := by
  have hs := sortedItems_sorted data
  have hnd : ((sortedItems data).map Prod.fst).Nodup :=
    (((sortedItems_perm data).map Prod.fst).nodup_iff).mpr h
  have hne : List.Pairwise (fun p q : String × PyDecimal => p.1 ≠ q.1)
      (sortedItems data) := List.pairwise_map.mp hnd
  refine (hs.and hne).imp ?_
  rintro a b ⟨h1, h2⟩
  exact lexLt_of_le_of_ne h1 (fun hd => h2 (string_eq_of_data_eq hd))

/-! ### Helper lemmas: decimal digit strings -/

theorem digitChar_digit {m : Nat} (h : m < 10) :
    isDigitChar (Nat.digitChar m) = true := by
  interval_cases m <;> decide

theorem toDigitsCore_digits (fuel : Nat) :
    ∀ (n : Nat) (ds : List Char), (∀ c ∈ ds, isDigitChar c = true) →
      ∀ c ∈ Nat.toDigitsCore 10 fuel n ds, isDigitChar c = true := by
  induction fuel with
  | zero =>
    intro n ds hds c hc
    exact hds c hc
  | succ fuel ih =>
    intro n ds hds c hc
    simp only [Nat.toDigitsCore] at hc
    have hdig : isDigitChar (Nat.digitChar (n % 10)) = true :=
      digitChar_digit (Nat.mod_lt _ (by norm_num))
    split at hc
    · rcases List.mem_cons.mp hc with rfl | hmem
      · exact hdig
      · exact hds c hmem
    · refine ih _ _ ?_ c hc
      intro d hd
      rcases List.mem_cons.mp hd with rfl | hmem
      · exact hdig
      · exact hds d hmem

theorem repr_digits (n : Nat) :
    ∀ c ∈ (Nat.repr n).data, isDigitChar c = true := by
  intro c hc
  exact toDigitsCore_digits (n + 1) n [] (by simp) c hc

theorem dot_not_mem_repr (n : Nat) : '.' ∉ (Nat.repr n).data := by
  intro h
  have := repr_digits n _ h
  simp [isDigitChar] at this

/-! ### Helper lemmas: totals lookup and grouping by currency -/

theorem updAdd_lookup {ts : List (String × PyDecimal)} {cur : String}
    {a : PyDecimal} {ts2 : List (String × PyDecimal)}
    (h : updAdd ts cur a = some ts2) :
    pyAdd (lookupTot ts cur) a = some (lookupTot ts2 cur) ∧
      ∀ c, c ≠ cur → lookupTot ts2 c = lookupTot ts c := by
  induction ts generalizing ts2 with
  | nil =>
    simp only [updAdd] at h
    cases hv : pyAdd pyZero a with
    | none => rw [hv] at h; exact Option.noConfusion h
    | some v =>
      rw [hv] at h
      simp only [Option.map_some', Option.some_inj] at h
      subst h
      refine ⟨?_, ?_⟩
      · simpa [lookupTot] using hv
      · intro c hc
        have hcc : ¬(cur = c) := fun he => hc he.symm
        simp [lookupTot, hcc]
  | cons kv rest ih =>
    obtain ⟨k, v⟩ := kv
    simp only [updAdd] at h
    split at h
    · rename_i hk
      subst hk
      cases hv : pyAdd v a with
      | none => rw [hv] at h; exact Option.noConfusion h
      | some w =>
        rw [hv] at h
        simp only [Option.map_some', Option.some_inj] at h
        subst h
        refine ⟨?_, ?_⟩
        · simpa [lookupTot] using hv
        · intro c hc
          have hcc : ¬(k = c) := fun he => hc he.symm
          simp [lookupTot, hcc]
    · rename_i hk
      cases hr : updAdd rest cur a with
      | none => rw [hr] at h; exact Option.noConfusion h
      | some r2 =>
        rw [hr] at h
        simp only [Option.map_some', Option.some_inj] at h
        subst h
        obtain ⟨h1, h2⟩ := ih hr
        refine ⟨?_, ?_⟩
        · simpa [lookupTot, hk] using h1
        · intro c hc
          by_cases hkc : k = c
          · simp [lookupTot, hkc]
          · simp [lookupTot, hkc, h2 c hc]

theorem accumFrom_foldFrom {recs : List (PyDecimal × String)}
    {ts ts' : List (String × PyDecimal)}
    (h : accumFrom ts recs = some ts') (c : String) :
    foldFrom (lookupTot ts c) (amountsOfRecs c recs) = some (lookupTot ts' c) := by
  induction recs generalizing ts with
  | nil =>
    simp only [accumFrom, Option.some_inj] at h
    subst h
    simp [amountsOfRecs, foldFrom]
  | cons r rs ih =>
    obtain ⟨a, cur⟩ := r
    simp only [accumFrom] at h
    cases hupd : updAdd ts cur a with
    | none => rw [hupd] at h; simp at h
    | some ts1 =>
      rw [hupd] at h
      obtain ⟨hadd, hother⟩ := updAdd_lookup hupd
      by_cases hc : cur = c
      · subst hc
        have hstep : amountsOfRecs cur ((a, cur) :: rs) =
            a :: amountsOfRecs cur rs := by
          simp [amountsOfRecs, List.filter_cons]
        rw [hstep]
        simp only [foldFrom]
        rw [hadd]
        exact ih h
      · have hstep : amountsOfRecs c ((a, cur) :: rs) = amountsOfRecs c rs := by
          simp [amountsOfRecs, List.filter_cons, hc]
        rw [hstep, ← hother c (fun he => hc he.symm)]
        exact ih h

theorem runLoop_foldFrom {lines : List String}
    {ts ts' : List (String × PyDecimal)} {es es' : List String}
    (h : runLoop ts es lines = .done ts' es') (c : String) :
    foldFrom (lookupTot ts c) (amountsFor c lines) = some (lookupTot ts' c) := by
  induction lines generalizing ts es with
  | nil =>
    simp only [runLoop, LoopOut.done.injEq] at h
    obtain ⟨rfl, rfl⟩ := h
    simp [amountsFor, validRecords, foldFrom]
  | cons line rest ih =>
    simp only [runLoop] at h
    split at h
    · rename_i amount currency snd hp
      split at h
      · rename_i ts1 hupd
        obtain ⟨hadd, hother⟩ := updAdd_lookup hupd
        have hrec : validRecords (line :: rest) =
            (amount, currency) :: validRecords rest := by
          simp [validRecords, List.filterMap_cons, hp]
        by_cases hc : currency = c
        · subst hc
          have hstep : amountsFor currency (line :: rest) =
              amount :: amountsFor currency rest := by
            simp [amountsFor, hrec, List.filter_cons]
          rw [hstep]
          simp only [foldFrom]
          rw [hadd]
          exact ih h
        · have hstep : amountsFor c (line :: rest) = amountsFor c rest := by
            simp [amountsFor, hrec, List.filter_cons, hc]
          rw [hstep, ← hother c (fun he => hc he.symm)]
          exact ih h
      · exact absurd h (by simp)
    · rename_i d hp
      have hstep : amountsFor c (line :: rest) = amountsFor c rest := by
        simp [amountsFor, validRecords, List.filterMap_cons, hp]
      rw [hstep]
      exact ih h

/-! ### Helper lemmas: values of finite decimals -/

theorem tenPow_pos (e : Int) : (0 : ℚ) < (10 : ℚ) ^ e :=
  zpow_pos (by norm_num) e

theorem tenPow_split {e1 e : Int} (h : e ≤ e1) :
    (10 : ℚ) ^ (e1 - e).toNat * (10 : ℚ) ^ e = (10 : ℚ) ^ e1 := by
  rw [← zpow_natCast (10 : ℚ) (e1 - e).toNat, Int.toNat_of_nonneg (by omega),
    ← zpow_add₀ (by norm_num : (10 : ℚ) ≠ 0)]
  congr 1
  omega

theorem valQ_num_eq (s : Bool) (c : Nat) (e : Int) :
    valQ (.num s c e) = (signedCoeff s c : ℚ) * (10 : ℚ) ^ e := by
  cases s <;> simp [valQ, signedCoeff]

theorem valQ_zero_iff (s : Bool) (c : Nat) (e : Int) :
    valQ (.num s c e) = 0 ↔ c = 0 := by
  rw [valQ_num_eq, mul_eq_zero]
  simp only [(tenPow_pos e).ne', or_false]
  cases s <;> simp [signedCoeff]

theorem valQ_neg_iff (s : Bool) (c : Nat) (e : Int) (hc : c ≠ 0) :
    valQ (.num s c e) < 0 ↔ s = true := by
  have h1 : (0 : ℚ) < (c : ℚ) := by exact_mod_cast Nat.pos_of_ne_zero hc
  have h2 := tenPow_pos e
  cases s
  · apply iff_of_false
    · apply not_lt.mpr
      have hv : valQ (.num false c e) = (c : ℚ) * (10 : ℚ) ^ e := by
        simp [valQ]
      rw [hv]
      positivity
    · simp
  · apply iff_of_true
    · have hv : valQ (.num true c e) = -((c : ℚ) * (10 : ℚ) ^ e) := by
        simp [valQ]
      rw [hv]
      have := mul_pos h1 h2
      linarith
    · rfl

theorem signedCoeff_natAbs (i : Int) :
    signedCoeff (decide (i < 0)) i.natAbs = i := by
  rcases lt_or_ge i 0 with h | h
  · rw [decide_eq_true h]
    show -(i.natAbs : Int) = i
    omega
  · rw [decide_eq_false (not_lt.mpr h)]
    show (i.natAbs : Int) = i
    omega

/-! ### Helper lemmas: exact accumulation -/

theorem stepExact_pyAdd {s1 : Bool} {c1 : Nat} {e1 : Int} {s2 : Bool}
    {c2 : Nat} {e2 : Int}
    (hstep : stepExact (.num s1 c1 e1) (.num s2 c2 e2) = true)
    (hz : c1 = 0 → s1 = false) :
    ∃ s3 c3 e3, pyAdd (.num s1 c1 e1) (.num s2 c2 e2) = some (.num s3 c3 e3) ∧
      valQ (.num s3 c3 e3) = valQ (.num s1 c1 e1) + valQ (.num s2 c2 e2) ∧
      (c3 = 0 → s3 = false) := by
  have hpy : pyAdd (.num s1 c1 e1) (.num s2 c2 e2) =
      pyAddNum s1 c1 e1 s2 c2 e2 := rfl
  rw [hpy]
  simp only [stepExact] at hstep
  simp only [pyAddNum]
  set e := min e1 e2 with he
  set i := signedCoeff s1 c1 * 10 ^ (e1 - e).toNat +
    signedCoeff s2 c2 * 10 ^ (e2 - e).toNat with hi
  have he1 : e ≤ e1 := min_le_left _ _
  have he2 : e ≤ e2 := min_le_right _ _
  have hval : (i : ℚ) * (10 : ℚ) ^ e =
      valQ (.num s1 c1 e1) + valQ (.num s2 c2 e2) := by
    rw [valQ_num_eq, valQ_num_eq, hi]
    push_cast
    rw [add_mul, mul_assoc, mul_assoc, tenPow_split he1, tenPow_split he2]
  by_cases h0 : i = 0
  · rw [if_pos h0]
    refine ⟨s1 && s2, 0, min (max e pyEtiny) pyEmax, rfl, ?_, ?_⟩
    · have h00 := hval
      rw [h0] at h00
      simp only [Int.cast_zero, zero_mul] at h00
      simp only [valQ, Nat.cast_zero, mul_zero, zero_mul]
      exact h00
    · intro _
      have hsum : valQ (.num s1 c1 e1) + valQ (.num s2 c2 e2) = 0 := by
        rw [← hval, h0]
        push_cast
        ring
      by_cases hc1 : c1 = 0
      · rw [hz hc1]
        rfl
      · cases s1 with
        | false => rfl
        | true =>
          have hv1 : valQ (.num true c1 e1) < 0 :=
            (valQ_neg_iff true c1 e1 hc1).mpr rfl
          have hc2 : c2 ≠ 0 := by
            intro h2
            have h20 : valQ (.num s2 c2 e2) = 0 := (valQ_zero_iff _ _ _).mpr h2
            have : valQ (.num true c1 e1) = 0 := by linarith
            exact hc1 ((valQ_zero_iff _ _ _).mp this)
          cases s2 with
          | false => rfl
          | true =>
            have hv2 : valQ (.num true c2 e2) < 0 :=
              (valQ_neg_iff true c2 e2 hc2).mpr rfl
            linarith
  · rw [if_neg h0]
    rw [if_neg h0] at hstep
    simp only [Bool.and_eq_true, decide_eq_true_eq] at hstep
    obtain ⟨⟨h1, h2⟩, h3⟩ := hstep
    have hside : (numDigits i.natAbs - pyPrec : Nat) = 0 :=
      Nat.sub_eq_zero_of_le h1
    have htarget : max (e + ((numDigits i.natAbs - pyPrec : Nat) : Int))
        pyEtiny = e := by
      rw [hside]
      simp only [Nat.cast_zero, add_zero]
      exact max_eq_left h2
    rw [htarget, if_pos (le_refl e), if_neg (not_lt.mpr h3)]
    refine ⟨decide (i < 0), i.natAbs, e, rfl, ?_, ?_⟩
    · rw [valQ_num_eq, signedCoeff_natAbs]
      exact hval
    · intro hc3
      exact absurd (Int.natAbs_eq_zero.mp hc3) h0

theorem exactFits_foldFrom {ds : List PyDecimal} :
    ∀ {s : Bool} {c : Nat} {e : Int}, exactFits (.num s c e) ds = true →
      (c = 0 → s = false) →
      ∃ s' c' e', foldFrom (.num s c e) ds = some (.num s' c' e') ∧
        valQ (.num s' c' e') = valQ (.num s c e) + (ds.map valQ).sum ∧
        (c' = 0 → s' = false) := by
  induction ds with
  | nil =>
    intro s c e _ hz
    exact ⟨s, c, e, rfl, by simp, hz⟩
  | cons d rest ih =>
    intro s c e hfit hz
    simp only [exactFits, Bool.and_eq_true] at hfit
    obtain ⟨hstep, hrest⟩ := hfit
    cases d with
    | inf s2 => simp [stepExact] at hstep
    | nan s2 sig p => simp [stepExact] at hstep
    | num s2 c2 e2 =>
      obtain ⟨s3, c3, e3, hadd, hval, hz3⟩ := stepExact_pyAdd hstep hz
      split at hrest
      · rename_i acc2 heq
        rw [hadd] at heq
        obtain rfl : acc2 = PyDecimal.num s3 c3 e3 := (Option.some_inj.mp heq).symm
        obtain ⟨s', c', e', hfold, hval', hz'⟩ := ih hrest hz3
        refine ⟨s', c', e', ?_, ?_, hz'⟩
        · simp only [foldFrom]
          rw [hadd]
          exact hfold
        · rw [hval', hval]
          simp only [List.map_cons, List.sum_cons]
          ring
      · exact absurd hrest (by simp)

/-! ### Helper lemmas: half-even rounding -/

theorem halfEvenRoundQ_intCast (n : ℤ) : halfEvenRoundQ (n : ℚ) = n := by
  unfold halfEvenRoundQ
  rw [Int.fract_intCast]
  norm_num

theorem halfEvenDiv_cast (m k : Nat) (hk : 0 < k) :
    (halfEvenDiv m k : ℤ) = halfEvenRoundQ ((m : ℚ) / (k : ℚ)) := by
  have hkQ : (0 : ℚ) < (k : ℚ) := by exact_mod_cast hk
  have hm := Nat.div_add_mod m k
  set q := m / k with hq
  set r := m % k with hr
  have hrk : r < k := Nat.mod_lt _ hk
  have hx : (m : ℚ) / k = (q : ℚ) + (r : ℚ) / k := by
    field_simp
    push_cast [← hm]
    ring
  have hr0 : (0 : ℚ) ≤ (r : ℚ) / k := by positivity
  have hr1 : (r : ℚ) / k < 1 := (div_lt_one hkQ).mpr (by exact_mod_cast hrk)
  have hfloor : ⌊(m : ℚ) / k⌋ = (q : ℤ) := by
    apply Int.floor_eq_iff.mpr
    constructor
    · rw [hx]
      push_cast
      linarith
    · rw [hx]
      push_cast
      linarith
  have hfract : Int.fract ((m : ℚ) / k) = (r : ℚ) / k := by
    rw [Int.fract, hfloor, hx]
    push_cast
    ring
  unfold halfEvenRoundQ
  rw [hfract, hfloor]
  simp only [halfEvenDiv]
  rw [← hq, ← hr]
  by_cases hA : k < 2 * r
  · rw [if_pos hA]
    have hgt : (1 : ℚ) / 2 < (r : ℚ) / k := by
      rw [div_lt_div_iff (by norm_num) hkQ]
      push_cast
      have : (k : ℚ) < 2 * r := by exact_mod_cast hA
      linarith
    have hhalf : ¬((r : ℚ) / k = 1 / 2) := by
      intro hh
      rw [hh] at hgt
      norm_num at hgt
    rw [if_neg hhalf, round_eq, hx]
    have hfl : ⌊(q : ℚ) + (r : ℚ) / k + 1 / 2⌋ = (q : ℤ) + 1 := by
      apply Int.floor_eq_iff.mpr
      constructor
      · push_cast
        linarith
      · push_cast
        linarith
    rw [hfl]
    push_cast
    ring
  · rw [if_neg hA]
    by_cases hB : 2 * r < k
    · rw [if_pos hB]
      have hlt : (r : ℚ) / k < 1 / 2 := by
        rw [div_lt_div_iff hkQ (by norm_num)]
        push_cast
        have : (2 : ℚ) * r < k := by exact_mod_cast hB
        linarith
      have hhalf : ¬((r : ℚ) / k = 1 / 2) := by
        intro hh
        rw [hh] at hlt
        norm_num at hlt
      rw [if_neg hhalf, round_eq, hx]
      have hfl : ⌊(q : ℚ) + (r : ℚ) / k + 1 / 2⌋ = (q : ℤ) := by
        apply Int.floor_eq_iff.mpr
        constructor
        · push_cast
          linarith
        · push_cast
          linarith
      rw [hfl]
    · have hEq : 2 * r = k := by omega
      rw [if_neg hB]
      have hhalf : (r : ℚ) / k = 1 / 2 := by
        rw [div_eq_div_iff (ne_of_gt hkQ) (by norm_num : (2 : ℚ) ≠ 0)]
        push_cast [← hEq]
        ring
      rw [if_pos hhalf]
      by_cases hq2 : q % 2 = 0
      · rw [if_pos hq2]
        have hz : (q : ℤ) % 2 = 0 := by omega
        rw [if_pos hz]
      · rw [if_neg hq2]
        have hz : ¬((q : ℤ) % 2 = 0) := by omega
        rw [if_neg hz]
        push_cast
        ring

theorem rescaleCoeff_eq (c : Nat) (e : Int) :
    (fmtEntry.rescaleCoeff c e : ℤ) = specRound2 ((c : ℚ) * (10 : ℚ) ^ e) := by
  unfold specRound2
  by_cases he : -2 ≤ e
  · have harg : 100 * ((c : ℚ) * (10 : ℚ) ^ e) =
        ((c * 10 ^ (e + 2).toNat : ℕ) : ℚ) := by
      push_cast
      rw [mul_comm (100 : ℚ), mul_assoc]
      congr 1
      rw [← zpow_natCast (10 : ℚ) (e + 2).toNat, Int.toNat_of_nonneg (by omega)]
      rw [show (100 : ℚ) = (10 : ℚ) ^ (2 : ℤ) from by norm_num]
      rw [← zpow_add₀ (by norm_num : (10 : ℚ) ≠ 0)]
    rw [harg]
    have : halfEvenRoundQ ((c * 10 ^ (e + 2).toNat : ℕ) : ℚ) =
        ((c * 10 ^ (e + 2).toNat : ℕ) : ℤ) := by
      rw [show (((c * 10 ^ (e + 2).toNat : ℕ) : ℚ)) =
        (((c * 10 ^ (e + 2).toNat : ℕ) : ℤ) : ℚ) from by push_cast; ring]
      exact halfEvenRoundQ_intCast _
    rw [this]
    simp only [fmtEntry.rescaleCoeff, if_pos he]
  · have hkpos : 0 < 10 ^ (-(e + 2)).toNat := pow_pos (by norm_num) _
    have harg : 100 * ((c : ℚ) * (10 : ℚ) ^ e) =
        (c : ℚ) / ((10 ^ (-(e + 2)).toNat : ℕ) : ℚ) := by
      push_cast
      rw [mul_comm (100 : ℚ), mul_assoc, div_eq_mul_inv]
      congr 1
      rw [← zpow_natCast (10 : ℚ) (-(e + 2)).toNat,
        Int.toNat_of_nonneg (by omega), ← zpow_neg]
      rw [show (100 : ℚ) = (10 : ℚ) ^ (2 : ℤ) from by norm_num]
      rw [← zpow_add₀ (by norm_num : (10 : ℚ) ≠ 0)]
      congr 1
      omega
    rw [harg, ← halfEvenDiv_cast c _ hkpos]
    simp only [fmtEntry.rescaleCoeff, if_neg he]

/-! ### Helper lemmas: rendering the report amount -/

theorem rescaleCoeff_zero (e : Int) : fmtEntry.rescaleCoeff 0 e = 0 := by
  by_cases he : -2 ≤ e
  · simp [fmtEntry.rescaleCoeff, he]
  · have hkpos : 0 < 10 ^ (-(e + 2)).toNat := pow_pos (by norm_num) _
    simp only [fmtEntry.rescaleCoeff, if_neg he]
    simp [halfEvenDiv, Nat.zero_div, Nat.zero_mod, hkpos]

theorem abs_valQ (s : Bool) (c : Nat) (e : Int) :
    |valQ (.num s c e)| = (c : ℚ) * (10 : ℚ) ^ e := by
  rw [valQ_num_eq, abs_mul]
  have h1 : |(signedCoeff s c : ℚ)| = (c : ℚ) := by
    cases s <;> simp [signedCoeff]
  rw [h1, abs_of_pos (tenPow_pos e)]

theorem format2_eq_specLine {s : Bool} {c : Nat} {e : Int}
    (hz : c = 0 → s = false) :
    fmtEntry.format2 (.num s c e) = specLine (valQ (.num s c e)) := by
  by_cases hc : c = 0
  · subst hc
    rw [hz rfl]
    have hv : valQ (.num false 0 e) = 0 := (valQ_zero_iff _ _ _).mpr rfl
    rw [hv]
    have hR : specLine 0 = "0.00" := by
      have h1 : specRound2 |(0 : ℚ)| = 0 := by
        simp [specRound2, halfEvenRoundQ]
      simp only [specLine, h1]
      norm_num
      rfl
    rw [hR]
    simp only [fmtEntry.format2, rescaleCoeff_zero]
    rfl
  · have hq : fmtEntry.rescaleCoeff c e =
        (specRound2 |valQ (.num s c e)|).toNat := by
      have h2 := rescaleCoeff_eq c e
      rw [abs_valQ]
      omega
    simp only [fmtEntry.format2, specLine, hq]
    have hif : (if s = true then "-" else "") =
        (if valQ (.num s c e) < 0 then "-" else "") := by
      cases s
      · have hnl : ¬(valQ (.num false c e) < 0) := fun hlt => by
          simpa using (valQ_neg_iff false c e hc).mp hlt
        rw [if_neg hnl, if_neg (by simp : ¬(false = true))]
      · have hl : valQ (.num true c e) < 0 := (valQ_neg_iff true c e hc).mpr rfl
        rw [if_pos hl, if_pos rfl]
    rw [hif]

theorem digit_char_ofNat {d : Nat} (h : d < 10) :
    isDigitChar (Char.ofNat (48 + d)) = true := by
  interval_cases d <;> decide

theorem format2_data (s : Bool) (c : Nat) (e : Int) :
    (fmtEntry.format2 (.num s c e)).data =
      ((if s then "-" else "").data ++
        (Nat.repr (fmtEntry.rescaleCoeff c e / 100)).data) ++
        '.' :: [Char.ofNat (48 + fmtEntry.rescaleCoeff c e % 100 / 10),
          Char.ofNat (48 + fmtEntry.rescaleCoeff c e % 100 % 10)] := by
  simp only [fmtEntry.format2, String.data_append, List.append_assoc]
  rfl

/-! ### Helper lemmas: malformed and blank lines -/

theorem parse_line_not2 {l : List String} (h : l.length ≠ 2) :
    parse_line l = (none,
      ["Skipping malformed line length: expected 2 parts, got '" ++
        Nat.repr l.length ++ "'"]) := by
  cases l with
  | nil => rfl
  | cons a t =>
    cases t with
    | nil => rfl
    | cons b t2 =>
      cases t2 with
      | nil => exact absurd rfl h
      | cons c t3 => rfl

theorem splitWsAux_all_space {l : List Char}
    (h : ∀ ch ∈ l, isPySpace ch = true) : splitWsAux l [] = [] := by
  induction l with
  | nil => rfl
  | cons ch cs ih =>
    have hch := h ch (List.mem_cons_self _ _)
    simp [splitWsAux, hch,
      ih (fun c hc => h c (List.mem_cons_of_mem _ hc))]

theorem pySplit_all_space {s : String}
    (h : ∀ ch ∈ s.data, isPySpace ch = true) : pySplit (pyStrip s) = [] := by
  have hsub : ∀ ch ∈ stripChars s.data, isPySpace ch = true := by
    intro ch hc
    apply h
    unfold stripChars at hc
    have h1 := List.mem_reverse.mp hc
    have h2 := (List.dropWhile_sublist _).subset h1
    have h3 := List.mem_reverse.mp h2
    exact (List.dropWhile_sublist _).subset h3
  show (splitWsAux (stripChars s.data) []).map List.asString = []
  rw [splitWsAux_all_space hsub]
  rfl

/-! ### Helper lemmas: plain numerals are accepted by the parser -/

theorem digit_not_space {ch : Char} (h : isDigitChar ch = true) :
    isPySpace ch = false := by
  simp only [isDigitChar, Bool.and_eq_true, decide_eq_true_eq] at h
  rw [Bool.eq_false_iff]
  intro hs
  simp only [isPySpace, Bool.or_eq_true, Bool.and_eq_true,
    decide_eq_true_eq] at hs
  omega

theorem digit_not_underscore {ch : Char} (h : isDigitChar ch = true) :
    (ch != '_') = true := by
  simp only [isDigitChar, Bool.and_eq_true, decide_eq_true_eq] at h
  simp only [bne_iff_ne, ne_eq]
  intro he
  subst he
  simp at h

theorem digit_asciiLower {ch : Char} (h : isDigitChar ch = true) :
    asciiLower ch = ch := by
  simp only [isDigitChar, Bool.and_eq_true, decide_eq_true_eq] at h
  unfold asciiLower
  rw [if_neg]
  simp only [Bool.and_eq_true, decide_eq_true_eq, not_and]
  omega

theorem splitSign_shape (l : List Char) :
    l = (splitSign l).2 ∨ l = '+' :: (splitSign l).2 ∨
      l = '-' :: (splitSign l).2 := by
  unfold splitSign
  split
  · right; left; rfl
  · right; right; rfl
  · left; rfl

theorem spanBy_shape (p : Char → Bool) (l : List Char) :
    l = (spanBy p l).1 ++ (spanBy p l).2 ∧
    (∀ ch ∈ (spanBy p l).1, p ch = true) ∧
    (∀ ch, (spanBy p l).2.head? = some ch → p ch = false) := by
  induction l with
  | nil =>
    refine ⟨rfl, by simp [spanBy], ?_⟩
    intro ch hch
    simp [spanBy] at hch
  | cons a t ih =>
    by_cases ha : p a = true
    · have he : spanBy p (a :: t) = (a :: (spanBy p t).1, (spanBy p t).2) := by
        simp [spanBy, ha]
      rw [he]
      refine ⟨?_, ?_, ?_⟩
      · simpa using ih.1
      · intro ch hch
        rcases List.mem_cons.mp hch with rfl | hmem
        · exact ha
        · exact ih.2.1 ch hmem
      · exact ih.2.2
    · have ha2 : p a = false := by
        cases hv : p a
        · rfl
        · exact absurd hv ha
      have he : spanBy p (a :: t) = ([], a :: t) := by
        simp [spanBy, ha2]
      rw [he]
      refine ⟨rfl, by simp, ?_⟩
      intro ch hch
      simp only [List.head?_cons, Option.some_inj] at hch
      rw [← hch]
      exact ha2

theorem spanBy_eq {p : Char → Bool} {d r : List Char}
    (hd : ∀ ch ∈ d, p ch = true)
    (hr : ∀ ch, r.head? = some ch → p ch = false) :
    spanBy p (d ++ r) = (d, r) := by
  induction d with
  | nil =>
    cases r with
    | nil => rfl
    | cons h t =>
      have := hr h (by simp)
      simp [spanBy, this]
  | cons ch cs ih =>
    have hch := hd ch (List.mem_cons_self _ _)
    simp [spanBy, hch,
      ih (fun c hc => hd c (List.mem_cons_of_mem _ hc))]

theorem ascii_digit_uni {ch : Char} (h : isDigitChar ch = true) :
    isUniDigit ch = true := by
  simp only [isDigitChar, Bool.and_eq_true, decide_eq_true_eq] at h
  simp only [isUniDigit, charDecimal?]
  rw [if_pos]
  · rfl
  · simp only [Bool.and_eq_true, decide_eq_true_eq]
    omega

theorem stripChars_id {l : List Char} (h : ∀ ch ∈ l, isPySpace ch = false) :
    stripChars l = l := by
  have h1 : l.dropWhile isPySpace = l := by
    cases l with
    | nil => rfl
    | cons a t => simp [List.dropWhile_cons, h a (List.mem_cons_self a t)]
  unfold stripChars
  rw [h1]
  have h2 : l.reverse.dropWhile isPySpace = l.reverse := by
    cases hrev : l.reverse with
    | nil => simp
    | cons a t =>
      have ha : a ∈ l := by
        rw [← List.mem_reverse, hrev]
        exact List.mem_cons_self _ _
      simp [List.dropWhile_cons, h a ha]
  rw [h2, List.reverse_reverse]

theorem digit_head_map_ne {d0 : Char} {T : List Char} {c : Char}
    {rest : List Char} (hd0 : isDigitChar d0 = true)
    (hc : isDigitChar c = false) :
    ¬((d0 :: T).map asciiLower = c :: rest) := by
  intro he
  rw [List.map_cons, digit_asciiLower hd0] at he
  have h1 : d0 = c := ((List.cons.injEq _ _ _ _).mp he).1
  rw [h1, hc] at hd0
  exact Bool.noConfusion hd0

theorem parseAfterSign_digits {sgn : Bool} {d0 : Char} {tl : List Char}
    (hd : ∀ ch ∈ d0 :: tl, isDigitChar ch = true) :
    (parseAfterSign sgn (d0 :: tl)).isSome = true := by
  have hd0 : isDigitChar d0 = true := hd d0 (List.mem_cons_self _ _)
  have hmap : (d0 :: tl).map asciiLower = d0 :: tl.map asciiLower := by
    rw [List.map_cons, digit_asciiLower hd0]
  have h1 : ¬((decide ((d0 :: tl).map asciiLower = "inf".data) ||
      decide ((d0 :: tl).map asciiLower = "infinity".data)) = true) := by
    simp only [Bool.or_eq_true, decide_eq_true_eq]
    rintro (he | he)
    · exact digit_head_map_ne hd0 (by decide) he
    · exact digit_head_map_ne hd0 (by decide) he
  have h2 : ¬(((d0 :: tl).map asciiLower).take 3 = "nan".data) := by
    rw [hmap]
    intro he
    have ht : ((d0 :: tl.map asciiLower).take 3) =
        d0 :: ((tl.map asciiLower).take 2) := rfl
    rw [ht, show ("nan".data : List Char) = 'n' :: ['a', 'n'] from rfl] at he
    have hh : d0 = 'n' := ((List.cons.injEq _ _ _ _).mp he).1
    rw [hh] at hd0
    exact absurd hd0 (by decide)
  have h3 : ¬(((d0 :: tl).map asciiLower).take 4 = "snan".data) := by
    rw [hmap]
    intro he
    have ht : ((d0 :: tl.map asciiLower).take 4) =
        d0 :: ((tl.map asciiLower).take 3) := rfl
    rw [ht, show ("snan".data : List Char) = 's' :: ['n', 'a', 'n'] from rfl]
      at he
    have hh : d0 = 's' := ((List.cons.injEq _ _ _ _).mp he).1
    rw [hh] at hd0
    exact absurd hd0 (by decide)
  have hspan : spanBy isUniDigit (d0 :: tl) = (d0 :: tl, []) := by
    have := spanBy_eq (d := d0 :: tl) (r := [])
      (fun ch hc => ascii_digit_uni (hd ch hc))
      (by intro ch hc; simp at hc)
    simpa using this
  simp only [parseAfterSign]
  rw [if_neg h1, if_neg h2, if_neg h3, hspan]
  rfl

theorem parseAfterSign_digits_dot {sgn : Bool} {d0 : Char} {tl r2 : List Char}
    (hd : ∀ ch ∈ d0 :: tl, isDigitChar ch = true)
    (hr2 : ∀ ch ∈ r2, isDigitChar ch = true) :
    (parseAfterSign sgn ((d0 :: tl) ++ '.' :: r2)).isSome = true := by
  have hd0 : isDigitChar d0 = true := hd d0 (List.mem_cons_self _ _)
  have hcons : (d0 :: tl) ++ '.' :: r2 = d0 :: (tl ++ '.' :: r2) := rfl
  rw [hcons]
  have hmap : (d0 :: (tl ++ '.' :: r2)).map asciiLower =
      d0 :: (tl ++ '.' :: r2).map asciiLower := by
    rw [List.map_cons, digit_asciiLower hd0]
  have h1 : ¬((decide ((d0 :: (tl ++ '.' :: r2)).map asciiLower = "inf".data) ||
      decide ((d0 :: (tl ++ '.' :: r2)).map asciiLower = "infinity".data))
        = true) := by
    simp only [Bool.or_eq_true, decide_eq_true_eq]
    rintro (he | he)
    · exact digit_head_map_ne hd0 (by decide) he
    · exact digit_head_map_ne hd0 (by decide) he
  have h2 : ¬(((d0 :: (tl ++ '.' :: r2)).map asciiLower).take 3 =
      "nan".data) := by
    rw [hmap]
    intro he
    have ht : ((d0 :: (tl ++ '.' :: r2).map asciiLower).take 3) =
        d0 :: (((tl ++ '.' :: r2).map asciiLower).take 2) := rfl
    rw [ht, show ("nan".data : List Char) = 'n' :: ['a', 'n'] from rfl] at he
    have hh : d0 = 'n' := ((List.cons.injEq _ _ _ _).mp he).1
    rw [hh] at hd0
    exact absurd hd0 (by decide)
  have h3 : ¬(((d0 :: (tl ++ '.' :: r2)).map asciiLower).take 4 =
      "snan".data) := by
    rw [hmap]
    intro he
    have ht : ((d0 :: (tl ++ '.' :: r2).map asciiLower).take 4) =
        d0 :: (((tl ++ '.' :: r2).map asciiLower).take 3) := rfl
    rw [ht, show ("snan".data : List Char) = 's' :: ['n', 'a', 'n'] from rfl]
      at he
    have hh : d0 = 's' := ((List.cons.injEq _ _ _ _).mp he).1
    rw [hh] at hd0
    exact absurd hd0 (by decide)
  have hspan : spanBy isUniDigit (d0 :: (tl ++ '.' :: r2))
      = (d0 :: tl, '.' :: r2) := by
    have := spanBy_eq (d := d0 :: tl) (r := '.' :: r2)
      (fun ch hc => ascii_digit_uni (hd ch hc))
      (by intro ch hc; simp only [List.head?_cons, Option.some_inj] at hc
          rw [← hc]; decide)
    simpa using this
  have hspan2 : spanBy isUniDigit r2 = (r2, []) := by
    have := spanBy_eq (d := r2) (r := [])
      (fun ch hc => ascii_digit_uni (hr2 ch hc))
      (by intro ch hc; simp at hc)
    simpa using this
  simp only [parseAfterSign]
  rw [if_neg h1, if_neg h2, if_neg h3, hspan]
  show (if (d0 :: tl).isEmpty && (spanBy isUniDigit r2).1.isEmpty then none
    else finishNumeric sgn (d0 :: tl) (spanBy isUniDigit r2).1
      (spanBy isUniDigit r2).2).isSome = true
  rw [hspan2]
  rfl

theorem isPlainNumeral_parses (s : String) (h : isPlainNumeral s = true) :
    (decimalOfString s).isSome = true := by
  simp only [isPlainNumeral] at h
  obtain ⟨hshape, hdig, hnd⟩ := spanBy_shape isDigitChar (splitSign s.data).2
  split at h
  · -- no fractional part: the whole remainder is the digit span
    rename_i heq
    have hne : (spanBy isDigitChar (splitSign s.data).2).1 ≠ [] := by
      intro hcon
      rw [hcon] at h
      simp at h
    obtain ⟨d0, tl, hintd⟩ :
        ∃ d0 tl, (spanBy isDigitChar (splitSign s.data).2).1 = d0 :: tl := by
      cases hC : (spanBy isDigitChar (splitSign s.data).2).1 with
      | nil => exact absurd hC hne
      | cons a b => exact ⟨a, b, rfl⟩
    have hclass : ∀ ch ∈ s.data,
        isDigitChar ch = true ∨ ch = '.' ∨ ch = '+' ∨ ch = '-' := by
      intro ch hc
      have hrest : ∀ ch2 ∈ (splitSign s.data).2, isDigitChar ch2 = true := by
        intro ch2 hc2
        rw [hshape, heq, List.append_nil] at hc2
        exact hdig ch2 hc2
      rcases splitSign_shape s.data with hsd | hsd | hsd
      · rw [hsd] at hc
        exact Or.inl (hrest ch hc)
      · rw [hsd] at hc
        rcases List.mem_cons.mp hc with rfl | hc2
        · right; right; left; rfl
        · exact Or.inl (hrest ch hc2)
      · rw [hsd] at hc
        rcases List.mem_cons.mp hc with rfl | hc2
        · right; right; right; rfl
        · exact Or.inl (hrest ch hc2)
    have hnospace : ∀ ch ∈ s.data, isPySpace ch = false := by
      intro ch hc
      rcases hclass ch hc with hd | rfl | rfl | rfl
      · exact digit_not_space hd
      · decide
      · decide
      · decide
    have hnound : ∀ ch ∈ s.data, (ch != '_') = true := by
      intro ch hc
      rcases hclass ch hc with hd | rfl | rfl | rfl
      · exact digit_not_underscore hd
      · decide
      · decide
      · decide
    have hredu : decimalOfString s =
        parseAfterSign (splitSign s.data).1 (splitSign s.data).2 := by
      simp only [decimalOfString]
      rw [stripChars_id hnospace, List.filter_eq_self.mpr hnound]
    have hrest2 : (splitSign s.data).2 = d0 :: tl := by
      rw [hshape, heq, List.append_nil, hintd]
    rw [hredu, hrest2]
    refine parseAfterSign_digits ?_
    rw [← hintd]
    exact hdig
  · -- a dot followed by (possibly empty) fraction digits
    rename_i r2 heq
    simp only [Bool.and_eq_true] at h
    obtain ⟨h1, h2⟩ := h
    have hall : ∀ ch ∈ r2, isDigitChar ch = true := by
      rw [List.all_eq_true] at h2
      exact fun ch hc => h2 ch hc
    have hne : (spanBy isDigitChar (splitSign s.data).2).1 ≠ [] := by
      intro hcon
      rw [hcon] at h1
      simp at h1
    obtain ⟨d0, tl, hintd⟩ :
        ∃ d0 tl, (spanBy isDigitChar (splitSign s.data).2).1 = d0 :: tl := by
      cases hC : (spanBy isDigitChar (splitSign s.data).2).1 with
      | nil => exact absurd hC hne
      | cons a b => exact ⟨a, b, rfl⟩
    have hclass : ∀ ch ∈ s.data,
        isDigitChar ch = true ∨ ch = '.' ∨ ch = '+' ∨ ch = '-' := by
      intro ch hc
      have hrest : ∀ ch2 ∈ (splitSign s.data).2,
          isDigitChar ch2 = true ∨ ch2 = '.' := by
        intro ch2 hc2
        rw [hshape, heq] at hc2
        rcases List.mem_append.mp hc2 with hm | hm
        · exact Or.inl (hdig ch2 hm)
        · rcases List.mem_cons.mp hm with rfl | hm2
          · exact Or.inr rfl
          · exact Or.inl (hall ch2 hm2)
      rcases splitSign_shape s.data with hsd | hsd | hsd
      · rw [hsd] at hc
        rcases hrest ch hc with hd | rfl
        · exact Or.inl hd
        · right; left; rfl
      · rw [hsd] at hc
        rcases List.mem_cons.mp hc with rfl | hc2
        · right; right; left; rfl
        · rcases hrest ch hc2 with hd | rfl
          · exact Or.inl hd
          · right; left; rfl
      · rw [hsd] at hc
        rcases List.mem_cons.mp hc with rfl | hc2
        · right; right; right; rfl
        · rcases hrest ch hc2 with hd | rfl
          · exact Or.inl hd
          · right; left; rfl
    have hnospace : ∀ ch ∈ s.data, isPySpace ch = false := by
      intro ch hc
      rcases hclass ch hc with hd | rfl | rfl | rfl
      · exact digit_not_space hd
      · decide
      · decide
      · decide
    have hnound : ∀ ch ∈ s.data, (ch != '_') = true := by
      intro ch hc
      rcases hclass ch hc with hd | rfl | rfl | rfl
      · exact digit_not_underscore hd
      · decide
      · decide
      · decide
    have hredu : decimalOfString s =
        parseAfterSign (splitSign s.data).1 (splitSign s.data).2 := by
      simp only [decimalOfString]
      rw [stripChars_id hnospace, List.filter_eq_self.mpr hnound]
    have hrest2 : (splitSign s.data).2 = (d0 :: tl) ++ '.' :: r2 := by
      rw [hshape, heq, hintd]
    rw [hredu, hrest2]
    refine parseAfterSign_digits_dot ?_ hall
    rw [← hintd]
    exact hdig
  · exact absurd h (by simp)

/-! ### The claims -/

/-- C1: For the input file whose lines are "100.50 USD", "49.50 USD",
"10 EUR", "abc GBP", "5 EUR 1", the program writes exactly the two lines
"EUR: 10.00" then "USD: 150.00" to standard output, emits exactly two
diagnostics to the error stream (one for the unparsable amount "abc", one
for the 3-field line), and exits with code 0. -/
theorem c1_end_to_end :
    read_lines (FS.file ["100.50 USD", "49.50 USD", "10 EUR", "abc GBP",
      "5 EUR 1"]) "input.txt" =
    RunResult.exit ["EUR: 10.00", "USD: 150.00"]
      ["Skipping malformed amount: 'abc'",
        "Skipping malformed line length: expected 2 parts, got '3'"] 0 := by
  decide

/-- C2, counterexample: with the two valid records
`10000000000000000000000000000 USD` (29 significant digits) and `1 USD`, the
line loop completes but the accumulated USD total is `1E+28` (the second
addition is rounded half-even to the default context's 28 significant
digits), which differs from the exact mathematical sum `10^28 + 1`: the
claim as stated (exact sums for any input magnitude) is false. -/
theorem c2_counterexample :
    runLoop [] [] ["10000000000000000000000000000 USD", "1 USD"] =
      LoopOut.done [("USD", PyDecimal.num false (10 ^ 27) 1)] [] ∧
    valQ (lookupTot [("USD", PyDecimal.num false (10 ^ 27) 1)] "USD") ≠
      ((amountsFor "USD"
        ["10000000000000000000000000000 USD", "1 USD"]).map valQ).sum := by
  refine ⟨by decide, ?_⟩
  have hAm : amountsFor "USD" ["10000000000000000000000000000 USD", "1 USD"] =
      [PyDecimal.num false (10 ^ 28) 0, PyDecimal.num false 1 0] := by decide
  have hLk : lookupTot [("USD", PyDecimal.num false (10 ^ 27) 1)] "USD" =
      PyDecimal.num false (10 ^ 27) 1 := rfl
  rw [hAm, hLk]
  simp only [List.map_cons, List.map_nil, List.sum_cons, List.sum_nil,
    valQ, Bool.false_eq_true, if_false, one_mul, add_zero, zpow_one, zpow_zero,
    mul_one]
  push_cast
  norm_num

/-- C2 (amended): for every input file whose line loop completes and every
currency, **provided every accumulation step for that currency is exact**
(the running sum never exceeds 28 significant digits or the context's
exponent range, `exactFits`), the accumulated total equals the exact
mathematical sum of the amounts of the valid records carrying that
currency.  Without that proviso each addition is rounded half-even to 28
significant digits, as the counterexample shows. -/
theorem c2_exact_sum (lines : List String) (c : String)
    (ts : List (String × PyDecimal)) (es : List String)
    (hdone : runLoop [] [] lines = LoopOut.done ts es)
    (hfit : exactFits pyZero (amountsFor c lines) = true) :
    valQ (lookupTot ts c) = ((amountsFor c lines).map valQ).sum := by
  have hg := runLoop_foldFrom hdone c
  have hz : lookupTot ([] : List (String × PyDecimal)) c =
      PyDecimal.num false 0 0 := rfl
  rw [hz] at hg
  have hfit2 : exactFits (PyDecimal.num false 0 0) (amountsFor c lines) =
      true := hfit
  obtain ⟨s2, c2, e2, hfold, hval, _⟩ :=
    exactFits_foldFrom hfit2 (fun _ => rfl)
  have heq : lookupTot ts c = PyDecimal.num s2 c2 e2 :=
    Option.some_inj.mp (hg.symm.trans hfold)
  rw [heq, hval]
  have h0 : valQ (PyDecimal.num false 0 0) = 0 := by simp [valQ]
  rw [h0, zero_add]

/-- C2, witness for the amended claim at a concrete exact run. -/
theorem c2_exact_sum_witness :
    runLoop [] [] ["1.50 USD", "2.25 USD"] =
      LoopOut.done [("USD", PyDecimal.num false 375 (-2))] [] ∧
    exactFits pyZero (amountsFor "USD" ["1.50 USD", "2.25 USD"]) = true ∧
    valQ (lookupTot [("USD", PyDecimal.num false 375 (-2))] "USD") =
      ((amountsFor "USD" ["1.50 USD", "2.25 USD"]).map valQ).sum :=
  ⟨by decide, by decide,
    c2_exact_sum ["1.50 USD", "2.25 USD"] "USD"
      [("USD", PyDecimal.num false 375 (-2))] [] (by decide) (by decide)⟩

/-- C3, counterexample: for a path that exists but is unreadable, `open`
raises `PermissionError`, which `read_lines` does not catch (it only
catches `FileNotFoundError` and `IndexError`): the exception escapes as an
unhandled fault and the "File not found" diagnostic is never printed, so
the claim's "or is inaccessible" half is false. -/
theorem c3_counterexample :
    read_lines FS.permissionDenied "data.txt" = RunResult.crash [] ∧
    RunResult.crash [] ≠
      RunResult.exit [] ["Error: File not found at 'data.txt'"] 1 :=
  ⟨rfl, by decide⟩

/-- C3 (amended): for every path that does not exist, the program prints
the diagnostic `Error: File not found at '<path>'` (including the path) to
the error stream and terminates with exit code 1, with no escaping
exception; a path that is merely inaccessible instead raises an uncaught
`PermissionError`. -/
theorem c3_file_not_found (p : String) :
    read_lines FS.notFound p =
      RunResult.exit [] ["Error: File not found at '" ++ p ++ "'"] 1 := rfl

/-- C4: every malformed line (field count other than 2, or unparsable
amount) contributes nothing to any total: the loop continues with the same
totals and exactly one diagnostic appended to the error stream; and a run
whose loop completes reaches the report and exits 0. -/
theorem c4_malformed_line (line : String) (rest : List String)
    (ts : List (String × PyDecimal)) (es : List String)
    (hbad : (pySplit (pyStrip line)).length ≠ 2 ∨
      ∃ a cc, pySplit (pyStrip line) = [a, cc] ∧ decimalOfString a = none) :
    (∃ d, parse_line (pySplit (pyStrip line)) = (none, [d]) ∧
      runLoop ts es (line :: rest) = runLoop ts (es ++ [d]) rest) ∧
    (∀ lines ts2 es2 path, runLoop [] [] lines = LoopOut.done ts2 es2 →
      read_lines (FS.file lines) path =
        RunResult.exit (aggregate_totals ts2) es2 0) := by
  constructor
  · have hpl : ∃ d, parse_line (pySplit (pyStrip line)) = (none, [d]) := by
      rcases hbad with hlen | ⟨a, cc, hparts, hnone⟩
      · exact ⟨_, parse_line_not2 hlen⟩
      · refine ⟨"Skipping malformed amount: '" ++ a ++ "'", ?_⟩
        rw [hparts]
        simp [parse_line, hnone]
    obtain ⟨d, hd⟩ := hpl
    refine ⟨d, hd, ?_⟩
    simp only [runLoop]
    rw [hd]
  · intro lines ts2 es2 path hdo
    simp only [read_lines]
    rw [hdo]

/-- C4, witness: the 3-field line of the end-to-end example. -/
theorem c4_malformed_line_witness :
    (pySplit (pyStrip "5 EUR 1")).length ≠ 2 ∧
    (∃ d, parse_line (pySplit (pyStrip "5 EUR 1")) = (none, [d]) ∧
      runLoop [] [] ["5 EUR 1"] = runLoop [] ([] ++ [d]) []) :=
  ⟨by decide, (c4_malformed_line "5 EUR 1" [] [] [] (Or.inl (by decide))).1⟩

/-- C5, counterexample: `"NaN"` is not a decimal numeral in the claim's
grammar (optional sign, digits, optional fractional part), yet
`parse_line ["NaN", "GBP"]` does not reject it: `Decimal("NaN")` succeeds
and a (NaN, "GBP") record is produced, so "only valid decimal numerals
yield a record" is false. -/
theorem c5_counterexample :
    isPlainNumeral "NaN" = false ∧
    parse_line ["NaN", "GBP"] =
      (some (PyDecimal.nan false false 0, "GBP"), []) :=
  ⟨by decide, by decide⟩

/-- C5 (amended): on a 2-field line, `parse_line` yields a record exactly
when Python's `Decimal` constructor accepts the first field — a strictly
larger language than the claim's plain-numeral grammar, as it also accepts
exponent notation, `Infinity`, `NaN`/`sNaN` and underscores — and rejects
every other first field with a "malformed amount" diagnostic carrying the
original text; every plain numeral of the claim's grammar is accepted. -/
theorem c5_amount_grammar :
    (∀ a cc : String, parse_line [a, cc] =
      (match decimalOfString a with
        | some d => (some (d, cc), [])
        | none => (none, ["Skipping malformed amount: '" ++ a ++ "'"]))) ∧
    (∀ s : String, isPlainNumeral s = true →
      (decimalOfString s).isSome = true) := by
  constructor
  · intro a cc
    rfl
  · exact isPlainNumeral_parses

/-- C5, witness for the grammar-inclusion half of the amended claim. -/
theorem c5_amount_grammar_witness :
    isPlainNumeral "100.50" = true ∧ (decimalOfString "100.50").isSome = true :=
  ⟨by decide, c5_amount_grammar.2 "100.50" (by decide)⟩

/-- C6: the report has exactly one line per currency of the totals mapping
(the output is a permutation of the formatted entries), and the entries are
emitted in strictly ascending codepoint-lexicographic (case-sensitive)
order of the currency code. -/
theorem c6_sorted_report (data : List (String × PyDecimal))
    (hnd : (data.map Prod.fst).Nodup) :
    aggregate_totals data = (sortedItems data).map fmtEntry ∧
    (aggregate_totals data).Perm (data.map fmtEntry) ∧
    List.Pairwise (fun p q => strLt p.1 q.1 = true) (sortedItems data) := by
  refine ⟨rfl, ?_, sortedItems_strict data hnd⟩
  exact (sortedItems_perm data).map fmtEntry

/-- C6, witness: inputs "usd" and "USD" give two lines, "USD" first. -/
theorem c6_sorted_report_witness :
    (([("usd", pyZero), ("USD", pyZero)].map Prod.fst).Nodup) ∧
    aggregate_totals [("usd", pyZero), ("USD", pyZero)] =
      ["USD: 0.00", "usd: 0.00"] ∧
    List.Pairwise (fun p q => strLt p.1 q.1 = true)
      (sortedItems [("usd", pyZero), ("USD", pyZero)]) :=
  ⟨by decide, by decide,
    (c6_sorted_report [("usd", pyZero), ("USD", pyZero)] (by decide)).2.2⟩

/-- C7, counterexample: a reachable total need not be a finite number, and
then the report line has no fraction digits at all — the input line
"NaN GBP" accumulates the quiet NaN into the GBP total and the program
prints "GBP: NaN" (exit 0), a line without a decimal point, refuting the
claim's "every report line … exactly two digits after the decimal point"
as stated. -/
theorem c7_counterexample :
    read_lines (FS.file ["NaN GBP"]) "input.txt" =
      RunResult.exit ["GBP: NaN"] [] 0 ∧
    '.' ∉ ("GBP: NaN" : String).data :=
  ⟨by decide, by decide⟩

/-- C7 (amended): every report line is `<currency>: <amount>`; for every
**finite** total (every `PyDecimal.num`) `<amount>` is the stored total
rescaled to exactly two digits after the decimal point, the rescaling
implements round-half-to-even of the exact value (the single rounding
rule, applied to every finite total), and in particular the halfway total
`10.005` renders as `10.00`.  Non-finite totals (NaN, Infinity) are
reachable and render without fraction digits, as the counterexample
shows. -/
theorem c7_two_decimals_half_even :
    (∀ data, aggregate_totals data =
      (sortedItems data).map (fun p => p.1 ++ ": " ++ fmtEntry.format2 p.2)) ∧
    (∀ (c : Nat) (e : Int), (fmtEntry.rescaleCoeff c e : ℤ) =
      specRound2 ((c : ℚ) * (10 : ℚ) ^ e)) ∧
    (∀ (s : Bool) (c : Nat) (e : Int), ∃ pre d1 d2,
      (fmtEntry.format2 (PyDecimal.num s c e)).data = pre ++ '.' :: [d1, d2] ∧
      isDigitChar d1 = true ∧ isDigitChar d2 = true ∧ '.' ∉ pre) ∧
    fmtEntry.format2 (PyDecimal.num false 10005 (-3)) = "10.00" := by
  refine ⟨fun data => rfl, rescaleCoeff_eq, ?_, by decide⟩
  intro s c e
  refine ⟨(if s then "-" else "").data ++
    (Nat.repr (fmtEntry.rescaleCoeff c e / 100)).data,
    Char.ofNat (48 + fmtEntry.rescaleCoeff c e % 100 / 10),
    Char.ofNat (48 + fmtEntry.rescaleCoeff c e % 100 % 10),
    format2_data s c e, digit_char_ofNat (by omega),
    digit_char_ofNat (by omega), ?_⟩
  intro hmem
  rcases List.mem_append.mp hmem with hm | hm
  · cases s
    · simp at hm
    · rw [show ((if (true : Bool) then "-" else "") : String).data = ['-']
        from rfl] at hm
      exact absurd (List.mem_singleton.mp hm) (by decide)
  · exact dot_not_mem_repr _ hm

/-- C8, counterexample: permuting a record sequence can change the final
total, because context-rounded addition is not associative: the records
(+1, -1, +1E28) of currency USD accumulate to `1E+28` in one order and to
`9999999999999999999999999999` in a permuted order, and even the reported
lines differ — the claim as stated is false. -/
theorem c8_counterexample :
    ([(PyDecimal.num false 1 0, "USD"), (PyDecimal.num true 1 0, "USD"),
      (PyDecimal.num false (10 ^ 28) 0, "USD")] :
        List (PyDecimal × String)).Perm
      [(PyDecimal.num false 1 0, "USD"),
        (PyDecimal.num false (10 ^ 28) 0, "USD"),
        (PyDecimal.num true 1 0, "USD")] ∧
    accumulate [(PyDecimal.num false 1 0, "USD"),
      (PyDecimal.num true 1 0, "USD"),
      (PyDecimal.num false (10 ^ 28) 0, "USD")] =
      some [("USD", PyDecimal.num false (10 ^ 27) 1)] ∧
    accumulate [(PyDecimal.num false 1 0, "USD"),
      (PyDecimal.num false (10 ^ 28) 0, "USD"),
      (PyDecimal.num true 1 0, "USD")] =
      some [("USD", PyDecimal.num false (10 ^ 28 - 1) 0)] ∧
    valQ (PyDecimal.num false (10 ^ 27) 1) ≠
      valQ (PyDecimal.num false (10 ^ 28 - 1) 0) ∧
    fmtEntry.format2 (PyDecimal.num false (10 ^ 27) 1) ≠
      fmtEntry.format2 (PyDecimal.num false (10 ^ 28 - 1) 0) := by
  refine ⟨by decide, by decide, by decide, ?_, by decide⟩
  simp only [valQ, Bool.false_eq_true, if_false, one_mul, zpow_one, zpow_zero,
    mul_one]
  push_cast
  norm_num

/-- C8 (amended): for record sequences that are permutations of each other,
**provided every accumulation step for the currency is exact in both
orders**, the final total for that currency has the same numeric value
(both equal the exact sum) and the reported line is identical.  Without the
exactness proviso the context rounding breaks the invariance, as the
counterexample shows. -/
theorem c8_perm_invariance (recs recs2 : List (PyDecimal × String))
    (c : String) (ts ts2 : List (String × PyDecimal))
    (hperm : recs.Perm recs2)
    (hacc : accumulate recs = some ts) (hacc2 : accumulate recs2 = some ts2)
    (hfit : exactFits pyZero (amountsOfRecs c recs) = true)
    (hfit2 : exactFits pyZero (amountsOfRecs c recs2) = true) :
    valQ (lookupTot ts c) = valQ (lookupTot ts2 c) ∧
    fmtEntry.format2 (lookupTot ts c) = fmtEntry.format2 (lookupTot ts2 c) := by
  have haccA : accumFrom [] recs = some ts := hacc
  have haccB : accumFrom [] recs2 = some ts2 := hacc2
  have hg1 := accumFrom_foldFrom haccA c
  have hg2 := accumFrom_foldFrom haccB c
  have hz : lookupTot ([] : List (String × PyDecimal)) c =
      PyDecimal.num false 0 0 := rfl
  rw [hz] at hg1 hg2
  have hfitA : exactFits (PyDecimal.num false 0 0) (amountsOfRecs c recs) =
      true := hfit
  have hfitB : exactFits (PyDecimal.num false 0 0) (amountsOfRecs c recs2) =
      true := hfit2
  obtain ⟨s1, c1, e1, hf1, hv1, hzs1⟩ := exactFits_foldFrom hfitA (fun _ => rfl)
  obtain ⟨s2, c2, e2, hf2, hv2, hzs2⟩ := exactFits_foldFrom hfitB (fun _ => rfl)
  have he1 : lookupTot ts c = PyDecimal.num s1 c1 e1 :=
    Option.some_inj.mp (hg1.symm.trans hf1)
  have he2 : lookupTot ts2 c = PyDecimal.num s2 c2 e2 :=
    Option.some_inj.mp (hg2.symm.trans hf2)
  have hsum : ((amountsOfRecs c recs).map valQ).sum =
      ((amountsOfRecs c recs2).map valQ).sum := by
    have hp : (amountsOfRecs c recs).Perm (amountsOfRecs c recs2) := by
      unfold amountsOfRecs
      exact (hperm.filter _).map _
    exact (hp.map valQ).sum_eq
  have hveq : valQ (PyDecimal.num s1 c1 e1) = valQ (PyDecimal.num s2 c2 e2) := by
    rw [hv1, hv2, hsum]
  refine ⟨by rw [he1, he2, hveq], ?_⟩
  rw [he1, he2, format2_eq_specLine hzs1, format2_eq_specLine hzs2, hveq]

/-- C8, witness for the amended claim at a concrete exact permutation. -/
theorem c8_perm_invariance_witness :
    ([(PyDecimal.num false 150 (-2), "USD"),
      (PyDecimal.num false 225 (-2), "USD")] :
        List (PyDecimal × String)).Perm
      [(PyDecimal.num false 225 (-2), "USD"),
        (PyDecimal.num false 150 (-2), "USD")] ∧
    valQ (lookupTot [("USD", PyDecimal.num false 375 (-2))] "USD") =
      valQ (lookupTot [("USD", PyDecimal.num false 375 (-2))] "USD") ∧
    fmtEntry.format2 (lookupTot [("USD", PyDecimal.num false 375 (-2))] "USD")
      = fmtEntry.format2
        (lookupTot [("USD", PyDecimal.num false 375 (-2))] "USD") :=
  ⟨by decide,
    c8_perm_invariance
      [(PyDecimal.num false 150 (-2), "USD"),
        (PyDecimal.num false 225 (-2), "USD")]
      [(PyDecimal.num false 225 (-2), "USD"),
        (PyDecimal.num false 150 (-2), "USD")]
      "USD" [("USD", PyDecimal.num false 375 (-2))]
      [("USD", PyDecimal.num false 375 (-2))]
      (by decide) (by decide) (by decide) (by decide) (by decide)⟩

/-- C9: invoked with zero positional arguments (argv is just the script
name), the program prints the usage diagnostic to the error stream and
exits with code 1, for any filesystem state (no file is opened, no stdout
line is produced, the report is never reached).  The code's literal program
string in the message is `python3 script.py`. -/
theorem c9_missing_argument (prog : String) (fs : FS) :
    main_run [prog] fs = RunResult.exit []
      ["Error: Missing file argument. Usage: python3 script.py <filename>"]
      1 := rfl

/-- C10: a line that is empty or all whitespace splits into 0 fields, so
the program emits the "malformed line length" diagnostic reporting an
observed field count of 0 (it is not silently skipped), the totals are
unchanged, and the loop continues with the next line. -/
theorem c10_blank_line (line : String)
    (h : ∀ ch ∈ line.data, isPySpace ch = true) :
    parse_line (pySplit (pyStrip line)) = (none,
      ["Skipping malformed line length: expected 2 parts, got '0'"]) ∧
    ∀ ts es rest, runLoop ts es (line :: rest) =
      runLoop ts (es ++
        ["Skipping malformed line length: expected 2 parts, got '0'"]) rest := by
  have hsplit : pySplit (pyStrip line) = [] := pySplit_all_space h
  have hpl : parse_line (pySplit (pyStrip line)) = (none,
      ["Skipping malformed line length: expected 2 parts, got '0'"]) := by
    rw [hsplit]
    decide
  refine ⟨hpl, ?_⟩
  intro ts es rest
  simp only [runLoop]
  rw [hpl]

/-- C10, witness at a line holding only the file-separator control
character U+001C, one of Python's split/strip whitespace characters. -/
theorem c10_blank_line_witness :
    (∀ ch ∈ ("\x1C" : String).data, isPySpace ch = true) ∧
    runLoop [] [] ["\x1C"] = runLoop []
      ([] ++ ["Skipping malformed line length: expected 2 parts, got '0'"])
      [] :=
  ⟨by decide, (c10_blank_line "\x1C" (by decide)).2 [] [] []⟩

/-- C3, witness instantiating the amended claim at a concrete path. -/
theorem c3_file_not_found_witness :
    read_lines FS.notFound "data.txt" =
      RunResult.exit [] ["Error: File not found at 'data.txt'"] 1 :=
  c3_file_not_found "data.txt"

/-- C7, witness: the halfway-value conjunct at the concrete total 10.005. -/
theorem c7_two_decimals_half_even_witness :
    fmtEntry.format2 (PyDecimal.num false 10005 (-3)) = "10.00" :=
  c7_two_decimals_half_even.2.2.2

/-- C9, witness at a concrete argv and filesystem. -/
theorem c9_missing_argument_witness :
    main_run ["script.py"] (FS.file ["100.50 USD"]) = RunResult.exit []
      ["Error: Missing file argument. Usage: python3 script.py <filename>"]
      1 :=
  c9_missing_argument "script.py" (FS.file ["100.50 USD"])
